import Mathlib

/-!
Verification of the synthetic-data simulator in
`examples/reprsimil/bayesian_rsa_example.ipynb` (brainiak).

The notebook's numerical core is embedded shallowly: the random draws of
`np.random.randn` / `np.random.rand` become explicit function arguments, and
the numpy array computations become functions on `Matrix (Fin _) (Fin _) ℝ`.
-/

namespace Brsa

open Matrix

noncomputable section

/-- Pairwise squared Euclidean distance between the coordinate vectors of two
voxels, from `spdist.squareform(spdist.pdist(coords_flat, 'sqeuclidean'))`.
The coordinate index type is kept general (`Fin 3` in the notebook). -/
def dist2 {n : ℕ} {ι : Type*} [Fintype ι] (p : Fin n → ι → ℝ) (i j : Fin n) : ℝ :=
  ∑ t, (p i t - p j t) ^ 2

/-- Pairwise squared intensity difference, from
`inten_diff2 = (inten_tile - inten_tile.T)**2`. -/
def inten_diff2 {n : ℕ} (inten : Fin n → ℝ) (i j : Fin n) : ℝ :=
  (inten i - inten j) ^ 2

/-- Spatial noise covariance, from the notebook:
`K_noise = noise_level[:, np.newaxis] * (np.exp(-dist2 / noise_smooth_width**2 / 2.0)
+ np.eye(n_V) * 0.1) * noise_level`. -/
def K_noise {n : ℕ} (noise_level : Fin n → ℝ) (p : Fin n → Fin 3 → ℝ) (w : ℝ) :
    Matrix (Fin n) (Fin n) ℝ :=
  Matrix.of fun i j =>
    noise_level i * (Real.exp (-dist2 p i j / w ^ 2 / 2) + if i = j then 0.1 else 0)
      * noise_level j

/-- SNR Gaussian-Process kernel, from the notebook:
`K = np.exp(-dist2 / smooth_width**2 / 2.0 - inten_diff2 / inten_kernel**2 / 2.0) * tau**2
+ np.eye(n_V) * tau**2 * 0.001`. -/
def K {n : ℕ} (p : Fin n → Fin 3 → ℝ) (inten : Fin n → ℝ) (smooth_width inten_kernel tau : ℝ) :
    Matrix (Fin n) (Fin n) ℝ :=
  Matrix.of fun i j =>
    Real.exp (-dist2 p i j / smooth_width ^ 2 / 2
        - inten_diff2 inten i j / inten_kernel ^ 2 / 2) * tau ^ 2
      + if i = j then tau ^ 2 * 0.001 else 0

/-- The AR(1) noise sequence, from the notebook loop:
`noise[0, :] = np.dot(L_noise, np.random.randn(n_V)) / np.sqrt(1 - rho1**2)` and
`noise[i_t, :] = noise[i_t - 1, :] * rho1 + np.dot(L_noise, np.random.randn(n_V))`.
The stream of standard-normal draws is the explicit argument `z`. -/
def noise {n : ℕ} (L : Matrix (Fin n) (Fin n) ℝ) (rho1 : Fin n → ℝ) (z : ℕ → Fin n → ℝ) :
    ℕ → Fin n → ℝ
  | 0 => fun v => (L *ᵥ z 0) v / Real.sqrt (1 - rho1 v ^ 2)
  | t + 1 => fun v => noise L rho1 z t v * rho1 v + (L *ᵥ z (t + 1)) v

/-- The final noise with the per-voxel offset added, from
`noise = noise + np.random.randn(n_V)` (the 1-D array of offsets broadcasts
across the time axis). -/
def noise_total {n : ℕ} (L : Matrix (Fin n) (Fin n) ℝ) (rho1 : Fin n → ℝ)
    (z : ℕ → Fin n → ℝ) (offs : Fin n → ℝ) : ℕ → Fin n → ℝ :=
  fun t v => noise L rho1 z t v + offs v

/-- The per-voxel pseudo-SNR, from `snr = np.exp(np.dot(L, np.random.randn(n_V))) * snr_level`. -/
def snr {n : ℕ} (L : Matrix (Fin n) (Fin n) ℝ) (z : Fin n → ℝ) (snr_level : ℝ) :
    Fin n → ℝ :=
  fun v => Real.exp ((L *ᵥ z) v) * snr_level

/-- The per-voxel amplitude scale, from `sqrt_v = noise_level * snr`. -/
def sqrt_v {n : ℕ} (noise_level s : Fin n → ℝ) : Fin n → ℝ :=
  fun v => noise_level v * s v

/-- Ground-truth betas, from
`betas_simulated = np.dot(L_full, np.random.randn(n_C, n_V)) * sqrt_v`. -/
def betas_simulated {nC nV : ℕ} (L_full : Matrix (Fin nC) (Fin nC) ℝ)
    (Z : Matrix (Fin nC) (Fin nV) ℝ) (sv : Fin nV → ℝ) : Matrix (Fin nC) (Fin nV) ℝ :=
  Matrix.of fun c v => (L_full * Z) c v * sv v

/-- The simulated signal, from `signal = np.dot(design.design_task, betas_simulated)`. -/
def signal {nT nC nV : ℕ} (design : Matrix (Fin nT) (Fin nC) ℝ)
    (B : Matrix (Fin nC) (Fin nV) ℝ) : Matrix (Fin nT) (Fin nV) ℝ :=
  design * B

/-- The ideal condition covariance matrix of the notebook:
`ideal_cov = np.eye(n_C) * 0.6`, then `ideal_cov[8:12, 8:12] = 0.8`, then
`ideal_cov[cond, cond] = 1` for `cond` in `8..11`. -/
def ideal_cov (nC : ℕ) : Matrix (Fin nC) (Fin nC) ℝ :=
  Matrix.of fun i j =>
    if 8 ≤ (i : ℕ) ∧ (i : ℕ) < 12 ∧ 8 ≤ (j : ℕ) ∧ (j : ℕ) < 12 then
      (if i = j then 1 else 0.8)
    else (if i = j then 0.6 else 0)

/-- Per-condition standard deviations, from `std_diag = np.diag(ideal_cov)**0.5`. -/
def std_diag {nC : ℕ} (U : Matrix (Fin nC) (Fin nC) ℝ) : Fin nC → ℝ :=
  fun i => Real.sqrt (U i i)

/-- Correlation matrix derived from a covariance matrix, from
`ideal_corr = ideal_cov / std_diag / std_diag[:, None]`. -/
def ideal_corr {nC : ℕ} (U : Matrix (Fin nC) (Fin nC) ℝ) : Matrix (Fin nC) (Fin nC) ℝ :=
  Matrix.of fun i j => U i j / std_diag U j / std_diag U i

/-- Modelled from the spec: `np.linalg.lstsq` is external library code (not in
this repository).  For a design matrix with linearly independent columns it
returns the unique least-squares solution, i.e. the solution of the normal
equations `XᵀX B = Xᵀ Y`; this is the `betas_point = np.linalg.lstsq(regressor, Y)[0]`
step of the notebook. -/
def betas_point {nT nC nV : ℕ} (X : Matrix (Fin nT) (Fin nC) ℝ)
    (Y : Matrix (Fin nT) (Fin nV) ℝ) : Matrix (Fin nC) (Fin nV) ℝ :=
  (Xᵀ * X)⁻¹ * (Xᵀ * Y)

/-- A Cholesky factor of `M`: lower triangular, invertible, with `L * Lᵀ = M`. -/
def CholeskyFactor {n : ℕ} (L M : Matrix (Fin n) (Fin n) ℝ) : Prop :=
  (∀ i j : Fin n, i < j → L i j = 0) ∧ IsUnit L.det ∧ L * Lᵀ = M

/-- Modelled from the spec: `np.linalg.cholesky` is external library code (not
in this repository).  It returns a lower-triangular factor when one exists and
otherwise raises an explicit not-positive-definite error instead of returning a
result. -/
noncomputable def cholesky {n : ℕ} (M : Matrix (Fin n) (Fin n) ℝ) :
    Except String (Matrix (Fin n) (Fin n) ℝ) :=
  open Classical in
  if h : ∃ L, CholeskyFactor L M then Except.ok h.choose
  else Except.error "noise covariance not positive definite"

/-- A kernel matrix is a Gram kernel when it is realized by a finite feature
map.  Gram kernels have positive semidefinite kernel matrices. -/
def IsGram {n : ℕ} (Kk : Fin n → Fin n → ℝ) : Prop :=
  ∃ (m : ℕ) (φ : Fin m → Fin n → ℝ), ∀ i j, Kk i j = ∑ s, φ s i * φ s j

/-- The i.i.d. noise generator described by the spec: at each time step an
independent draw from the spatial covariance, `noise[t] = L_noise @ z_t`. -/
def noise_iid {n : ℕ} (L : Matrix (Fin n) (Fin n) ℝ) (z : ℕ → Fin n → ℝ) :
    ℕ → Fin n → ℝ :=
  fun t => L *ᵥ z t

/- ### Theorems -/

/-- **C2.** The spatial noise covariance constructed by the notebook satisfies
`K_noise[i,j] = sigma_i * sigma_j * (exp(-dist2[i,j] / (2*width^2)) + 0.1 * [i==j])`. -/
theorem C2_K_noise_entries {n : ℕ} (noise_level : Fin n → ℝ) (p : Fin n → Fin 3 → ℝ)
    (w : ℝ) (i j : Fin n) :
    K_noise noise_level p w i j
      = noise_level i * noise_level j
          * (Real.exp (-dist2 p i j / (2 * w ^ 2)) + if i = j then 0.1 else 0) := by
  have harg : -dist2 p i j / w ^ 2 / 2 = -dist2 p i j / (2 * w ^ 2) := by
    rw [div_div, mul_comm]
  simp only [K_noise, Matrix.of_apply, harg]
  ring

/-- **C3.** The noise simulator produces
`noise[0] = (L_noise @ z_0) / sqrt(1 - rho1^2)` elementwise per voxel, and for
every `t` in `1..T-1`, `noise[t] = rho1 * noise[t-1] + L_noise @ z_t`. -/
theorem C3_noise_recurrence {n T : ℕ} (L : Matrix (Fin n) (Fin n) ℝ)
    (rho1 : Fin n → ℝ) (z : ℕ → Fin n → ℝ) (hT : 1 ≤ T)
    (hrho : ∀ v, |rho1 v| < 1) :
    (∀ v, noise L rho1 z 0 v = (L *ᵥ z 0) v / Real.sqrt (1 - rho1 v ^ 2))
      ∧ ∀ t, 1 ≤ t → t ≤ T - 1 →
          ∀ v, noise L rho1 z t v = rho1 v * noise L rho1 z (t - 1) v + (L *ᵥ z t) v := by
  refine ⟨fun v => rfl, fun t ht _ v => ?_⟩
  obtain ⟨s, rfl⟩ := Nat.exists_eq_add_of_le ht
  rw [Nat.add_comm 1 s, Nat.add_sub_cancel]
  simp only [noise]
  ring

/-- Witness for C3 at a concrete input. -/
theorem C3_noise_recurrence_witness :
    (∀ v, noise (1 : Matrix (Fin 1) (Fin 1) ℝ) (fun _ => 0) (fun _ _ => 1) 0 v
        = ((1 : Matrix (Fin 1) (Fin 1) ℝ) *ᵥ (fun _ => 1)) v / Real.sqrt (1 - (0 : ℝ) ^ 2))
      ∧ ∀ t, 1 ≤ t → t ≤ 2 - 1 →
          ∀ v, noise (1 : Matrix (Fin 1) (Fin 1) ℝ) (fun _ => 0) (fun _ _ => 1) t v
            = 0 * noise (1 : Matrix (Fin 1) (Fin 1) ℝ) (fun _ => 0) (fun _ _ => 1) (t - 1) v
                + ((1 : Matrix (Fin 1) (Fin 1) ℝ) *ᵥ (fun _ => 1)) v :=
  C3_noise_recurrence 1 (fun _ => 0) (fun _ _ => 1) (by norm_num)
    (fun _ => by norm_num)

/-- **C5.** After the AR(1) sequence is generated, a single per-voxel offset,
shared across all time points, is added: there is one `c : voxels → ℝ` with
`noise_total t v = noise t v + c v` for every time point `t`. -/
theorem C5_offset_shared {n : ℕ} (L : Matrix (Fin n) (Fin n) ℝ) (rho1 : Fin n → ℝ)
    (z : ℕ → Fin n → ℝ) (offs : Fin n → ℝ) :
    ∃ c : Fin n → ℝ, ∀ t v, noise_total L rho1 z offs t v = noise L rho1 z t v + c v :=
  ⟨offs, fun _ _ => rfl⟩

/-- **C7.** With `rho1 = 0` for every voxel, the AR(1) simulator reduces to the
i.i.d. generator: on the same draw stream, `noise t = L_noise @ z_t` for all `t`. -/
theorem C7_ar_zero_is_iid {n : ℕ} (L : Matrix (Fin n) (Fin n) ℝ) (rho1 : Fin n → ℝ)
    (z : ℕ → Fin n → ℝ) (h : ∀ v, rho1 v = 0) :
    ∀ t v, noise L rho1 z t v = noise_iid L z t v := by
  intro t
  induction t with
  | zero =>
      intro v
      simp [noise, noise_iid, h v]
  | succ t _ =>
      intro v
      simp [noise, noise_iid, h v]

/-- Witness for C7 at a concrete input. -/
theorem C7_ar_zero_is_iid_witness :
    noise (1 : Matrix (Fin 1) (Fin 1) ℝ) (fun _ => 0) (fun _ _ => 1) 1 0
      = noise_iid (1 : Matrix (Fin 1) (Fin 1) ℝ) (fun _ _ => 1) 1 0 :=
  C7_ar_zero_is_iid 1 (fun _ => 0) (fun _ _ => 1) (fun _ => rfl) 1 0

/-- **C1.** Each voxel's simulated beta vector is `L_U @ z_v` scaled by the
per-voxel amplitude `noise_std_v * pseudo_SNR_v` (so all voxels share the
covariance shape `U = L_U L_Uᵀ` and differ only in magnitude), and the signal
matrix is `design_matrix @ betas`. -/
theorem C1_betas_and_signal {nT nC nV : ℕ} (design : Matrix (Fin nT) (Fin nC) ℝ)
    (L_full : Matrix (Fin nC) (Fin nC) ℝ) (Lg : Matrix (Fin nV) (Fin nV) ℝ)
    (zsnr : Fin nV → ℝ) (snr_level : ℝ) (noise_level : Fin nV → ℝ)
    (Z : Matrix (Fin nC) (Fin nV) ℝ) :
    (∀ v c,
        betas_simulated L_full Z (sqrt_v noise_level (snr Lg zsnr snr_level)) c v
          = noise_level v * snr Lg zsnr snr_level v * (L_full *ᵥ fun k => Z k v) c)
      ∧ signal design (betas_simulated L_full Z (sqrt_v noise_level (snr Lg zsnr snr_level)))
          = design * betas_simulated L_full Z (sqrt_v noise_level (snr Lg zsnr snr_level)) := by
  refine ⟨fun v c => ?_, rfl⟩
  simp only [betas_simulated, Matrix.of_apply, sqrt_v, Matrix.mul_apply, Matrix.mulVec,
    Matrix.dotProduct]
  ring

/-- Entrywise Cauchy–Schwarz bound for real positive semidefinite matrices. -/
theorem psd_entry_sq_le {n : ℕ} {U : Matrix (Fin n) (Fin n) ℝ} (hU : U.PosSemidef)
    (i j : Fin n) : U i j ^ 2 ≤ U i i * U j j := by
  have hsym : U j i = U i j := by
    have h := hU.1.apply i j
    simpa using h
  have hq : ∀ t : ℝ, 0 ≤ U i i * (t * t) + (2 * U i j) * t + U j j := by
    intro t
    have h := hU.2 ((Pi.single i t : Fin n → ℝ) + Pi.single j 1)
    have hx : star ((Pi.single i t : Fin n → ℝ) + Pi.single j 1)
        = (Pi.single i t : Fin n → ℝ) + Pi.single j 1 := by
      simp
    rw [hx] at h
    have hexp : dotProduct ((Pi.single i t : Fin n → ℝ) + Pi.single j 1)
        (U *ᵥ ((Pi.single i t : Fin n → ℝ) + Pi.single j 1))
          = U i i * (t * t) + (2 * U i j) * t + U j j := by
      simp only [dotProduct, mulVec, Pi.add_apply, Pi.single_apply, mul_ite, ite_mul,
        mul_zero, zero_mul, mul_one, one_mul, add_mul, mul_add, Finset.sum_add_distrib,
        Finset.sum_ite_eq, Finset.sum_ite_eq', Finset.mem_univ, if_true]
      rw [hsym]
      ring
    linarith [hexp ▸ h]
  have hd : discrim (U i i) (2 * U i j) (U j j) ≤ 0 := discrim_le_zero hq
  rw [discrim] at hd
  nlinarith [hd]

/-- **C6.** The correlation matrix derived from a symmetric positive
semidefinite covariance matrix with strictly positive diagonal has unit
diagonal and all entries in `[-1, 1]`. -/
theorem C6_corr_unit_diag_bounded {n : ℕ} (U : Matrix (Fin n) (Fin n) ℝ)
    (hU : U.PosSemidef) (hdiag : ∀ i, 0 < U i i) :
    (∀ i, ideal_corr U i i = 1)
      ∧ ∀ i j, -1 ≤ ideal_corr U i j ∧ ideal_corr U i j ≤ 1 := by
  constructor
  · intro i
    simp only [ideal_corr, Matrix.of_apply, std_diag]
    rw [div_div, Real.mul_self_sqrt (hdiag i).le, div_self (hdiag i).ne']
  · intro i j
    have hsi : 0 < Real.sqrt (U i i) := Real.sqrt_pos.mpr (hdiag i)
    have hsj : 0 < Real.sqrt (U j j) := Real.sqrt_pos.mpr (hdiag j)
    have habs : |U i j| ≤ Real.sqrt (U j j) * Real.sqrt (U i i) := by
      have h1 : |U i j| = Real.sqrt (U i j ^ 2) := (Real.sqrt_sq_eq_abs _).symm
      have h2 : Real.sqrt (U i j ^ 2) ≤ Real.sqrt (U i i * U j j) :=
        Real.sqrt_le_sqrt (psd_entry_sq_le hU i j)
      have h3 : Real.sqrt (U i i * U j j)
          = Real.sqrt (U i i) * Real.sqrt (U j j) :=
        Real.sqrt_mul (hdiag i).le _
      rw [h1]
      rw [h3] at h2
      linarith [h2]
    have hbound : |ideal_corr U i j| ≤ 1 := by
      simp only [ideal_corr, Matrix.of_apply, std_diag, div_div]
      rw [abs_div, abs_of_pos (mul_pos hsj hsi)]
      exact div_le_one_of_le₀ habs (mul_pos hsj hsi).le
    exact abs_le.mp hbound

/-- Witness for C6 at a concrete input: the 1×1 covariance matrix `[[4]]`. -/
theorem C6_corr_unit_diag_bounded_witness :
    (∀ i, ideal_corr (Matrix.of fun _ _ : Fin 1 => (4 : ℝ)) i i = 1)
      ∧ ∀ i j, -1 ≤ ideal_corr (Matrix.of fun _ _ : Fin 1 => (4 : ℝ)) i j
          ∧ ideal_corr (Matrix.of fun _ _ : Fin 1 => (4 : ℝ)) i j ≤ 1 := by
  refine C6_corr_unit_diag_bounded _ ⟨?_, ?_⟩ (fun _ => by norm_num)
  · ext i j
    simp [Matrix.conjTranspose_apply]
  · intro x
    have : star x ⬝ᵥ (Matrix.of fun _ _ : Fin 1 => (4 : ℝ)) *ᵥ x = 4 * (x 0 * x 0) := by
      simp [Matrix.dotProduct, Matrix.mulVec, Fin.sum_univ_one]
      ring
    rw [this]
    nlinarith [mul_self_nonneg (x 0)]

/-- **C8.** With zero noise (`Y = X @ B` exactly) and a design matrix with
linearly independent columns, the least-squares estimate recovers `B`:
the round-trip `B -> X @ B -> betas_point` is the identity. -/
theorem C8_ols_roundtrip {nT nC nV : ℕ} (X : Matrix (Fin nT) (Fin nC) ℝ)
    (B : Matrix (Fin nC) (Fin nV) ℝ)
    (hX : ∀ b : Fin nC → ℝ, X *ᵥ b = 0 → b = 0) :
    betas_point X (signal X B) = B := by
  have hdet : IsUnit (Xᵀ * X).det := by
    rw [isUnit_iff_ne_zero]
    intro h0
    obtain ⟨v, hv, hveq⟩ := Matrix.exists_mulVec_eq_zero_iff.mpr h0
    have hq : dotProduct v ((Xᵀ * X) *ᵥ v) = dotProduct (X *ᵥ v) (X *ᵥ v) := by
      rw [← Matrix.mulVec_mulVec, Matrix.dotProduct_mulVec, Matrix.vecMul_transpose]
    rw [hveq, dotProduct_zero] at hq
    have hXv : X *ᵥ v = 0 := by
      have hz : ∑ k, (X *ᵥ v) k * (X *ᵥ v) k = 0 := by
        rw [← Matrix.dotProduct, ← hq]
      have hall := (Finset.sum_eq_zero_iff_of_nonneg
        (fun k _ => mul_self_nonneg ((X *ᵥ v) k))).mp hz
      funext k
      exact mul_self_eq_zero.mp (hall k (Finset.mem_univ k))
    exact hv (hX v hXv)
  show (Xᵀ * X)⁻¹ * (Xᵀ * (X * B)) = B
  rw [show Xᵀ * (X * B) = (Xᵀ * X) * B from (Matrix.mul_assoc _ _ _).symm,
    ← Matrix.mul_assoc, Matrix.nonsing_inv_mul _ hdet, Matrix.one_mul]

/-- Witness for C8 at a concrete input: identity design, constant betas. -/
theorem C8_ols_roundtrip_witness :
    betas_point (1 : Matrix (Fin 1) (Fin 1) ℝ)
        (signal 1 (Matrix.of fun _ _ : Fin 1 => (3 : ℝ)))
      = Matrix.of fun _ _ : Fin 1 => (3 : ℝ) :=
  C8_ols_roundtrip 1 _ (fun b hb => by simpa [Matrix.one_mulVec] using hb)

/-- The constant-one kernel is a Gram kernel. -/
theorem isGram_const_one {n : ℕ} : IsGram (fun _ _ : Fin n => (1 : ℝ)) :=
  ⟨1, fun _ _ => 1, fun i j => by simp⟩

/-- The inner-product kernel of any finite family of feature vectors is a Gram
kernel. -/
theorem isGram_inner {n : ℕ} {ι : Type*} [Fintype ι] (p : Fin n → ι → ℝ) :
    IsGram (fun i j => ∑ t, p i t * p j t) :=
  ⟨Fintype.card ι, fun s i => p i ((Fintype.equivFin ι).symm s), fun i j =>
    (Equiv.sum_comp (Fintype.equivFin ι).symm (fun t => p i t * p j t)).symm⟩

/-- Gram kernels are closed under pointwise products (elementary Schur
product property, via the tensor-product feature map). -/
theorem IsGram.mul {n : ℕ} {K₁ K₂ : Fin n → Fin n → ℝ} (h₁ : IsGram K₁) (h₂ : IsGram K₂) :
    IsGram (fun i j => K₁ i j * K₂ i j) := by
  obtain ⟨m₁, φ₁, hφ₁⟩ := h₁
  obtain ⟨m₂, φ₂, hφ₂⟩ := h₂
  refine ⟨m₁ * m₂, fun s i =>
    φ₁ (finProdFinEquiv.symm s).1 i * φ₂ (finProdFinEquiv.symm s).2 i, fun i j => ?_⟩
  show K₁ i j * K₂ i j
    = ∑ s : Fin (m₁ * m₂),
        (φ₁ (finProdFinEquiv.symm s).1 i * φ₂ (finProdFinEquiv.symm s).2 i)
          * (φ₁ (finProdFinEquiv.symm s).1 j * φ₂ (finProdFinEquiv.symm s).2 j)
  rw [hφ₁, hφ₂, Fintype.sum_mul_sum,
    show (∑ s : Fin (m₁ * m₂),
        (φ₁ (finProdFinEquiv.symm s).1 i * φ₂ (finProdFinEquiv.symm s).2 i)
          * (φ₁ (finProdFinEquiv.symm s).1 j * φ₂ (finProdFinEquiv.symm s).2 j))
      = ∑ q : Fin m₁ × Fin m₂, (φ₁ q.1 i * φ₂ q.2 i) * (φ₁ q.1 j * φ₂ q.2 j) from
      Equiv.sum_comp finProdFinEquiv.symm
        (fun q : Fin m₁ × Fin m₂ => (φ₁ q.1 i * φ₂ q.2 i) * (φ₁ q.1 j * φ₂ q.2 j)),
    Fintype.sum_prod_type]
  exact Finset.sum_congr rfl fun a _ => Finset.sum_congr rfl fun b _ => by ring

/-- Gram kernels are closed under pointwise powers. -/
theorem IsGram.pow {n : ℕ} {Kk : Fin n → Fin n → ℝ} (h : IsGram Kk) :
    ∀ k : ℕ, IsGram (fun i j => Kk i j ^ k) := by
  intro k
  induction k with
  | zero => simpa using isGram_const_one
  | succ k ih => simpa [pow_succ] using ih.mul h

/-- The quadratic form of a Gram kernel is nonnegative. -/
theorem IsGram.qf_nonneg {n : ℕ} {Kk : Fin n → Fin n → ℝ} (h : IsGram Kk) (c : Fin n → ℝ) :
    0 ≤ ∑ i, ∑ j, c i * c j * Kk i j := by
  obtain ⟨m, φ, hφ⟩ := h
  have hrw : ∑ i, ∑ j, c i * c j * Kk i j = ∑ s, (∑ i, c i * φ s i) ^ 2 := by
    calc ∑ i, ∑ j, c i * c j * Kk i j
        = ∑ i, ∑ j, ∑ s, (c i * φ s i) * (c j * φ s j) := by
          refine Finset.sum_congr rfl fun i _ => Finset.sum_congr rfl fun j _ => ?_
          rw [hφ, Finset.mul_sum]
          exact Finset.sum_congr rfl fun s _ => by ring
      _ = ∑ i, ∑ s, ∑ j, (c i * φ s i) * (c j * φ s j) :=
          Finset.sum_congr rfl fun i _ => Finset.sum_comm
      _ = ∑ s, ∑ i, ∑ j, (c i * φ s i) * (c j * φ s j) := Finset.sum_comm
      _ = ∑ s, (∑ i, c i * φ s i) ^ 2 := by
          refine Finset.sum_congr rfl fun s _ => ?_
          rw [sq, Fintype.sum_mul_sum]
  rw [hrw]
  exact Finset.sum_nonneg fun s _ => sq_nonneg _

/-- The quadratic form of the kernel `exp(<p_i, p_j>)` is nonnegative: the
exponential series has nonnegative coefficients and each power of the inner
product kernel is a Gram kernel. -/
theorem qf_exp_inner_nonneg {n : ℕ} {ι : Type*} [Fintype ι] (p : Fin n → ι → ℝ)
    (c : Fin n → ℝ) :
    0 ≤ ∑ i, ∑ j, c i * c j * Real.exp (∑ t, p i t * p j t) := by
  have hexp : Real.exp = fun x : ℝ => tsum (fun k : ℕ => x ^ k / (Nat.factorial k : ℝ)) := by
    rw [Real.exp_eq_exp_ℝ, NormedSpace.exp_eq_tsum_div]
  have hsummable : ∀ i j : Fin n,
      Summable (fun k : ℕ =>
        c i * c j * ((∑ t, p i t * p j t) ^ k / (Nat.factorial k : ℝ))) :=
    fun i j => (Real.summable_pow_div_factorial (∑ t, p i t * p j t)).mul_left _
  have key : ∀ k : ℕ,
      0 ≤ ∑ i, ∑ j, c i * c j * ((∑ t, p i t * p j t) ^ k / (Nat.factorial k : ℝ)) := by
    intro k
    have hg : 0 ≤ ∑ i, ∑ j, c i * c j * (∑ t, p i t * p j t) ^ k :=
      ((isGram_inner p).pow k).qf_nonneg c
    have heq : ∑ i, ∑ j, c i * c j * ((∑ t, p i t * p j t) ^ k / (Nat.factorial k : ℝ))
        = (∑ i, ∑ j, c i * c j * (∑ t, p i t * p j t) ^ k) / (Nat.factorial k : ℝ) := by
      rw [Finset.sum_div]
      refine Finset.sum_congr rfl fun i _ => ?_
      rw [Finset.sum_div]
      exact Finset.sum_congr rfl fun j _ => by ring
    rw [heq]
    exact div_nonneg hg (Nat.cast_nonneg _)
  have hflat : ∑ i, ∑ j, c i * c j * Real.exp (∑ t, p i t * p j t)
      = tsum (fun k : ℕ =>
          ∑ i, ∑ j, c i * c j * ((∑ t, p i t * p j t) ^ k / (Nat.factorial k : ℝ))) := by
    calc ∑ i, ∑ j, c i * c j * Real.exp (∑ t, p i t * p j t)
        = ∑ i, ∑ j, tsum (fun k : ℕ =>
            c i * c j * ((∑ t, p i t * p j t) ^ k / (Nat.factorial k : ℝ))) := by
          refine Finset.sum_congr rfl fun i _ => Finset.sum_congr rfl fun j _ => ?_
          simp only [hexp]
          exact tsum_mul_left.symm
      _ = ∑ i, tsum (fun k : ℕ => ∑ j,
            c i * c j * ((∑ t, p i t * p j t) ^ k / (Nat.factorial k : ℝ))) := by
          refine Finset.sum_congr rfl fun i _ => ?_
          exact (tsum_sum fun j _ => hsummable i j).symm
      _ = tsum (fun k : ℕ => ∑ i, ∑ j,
            c i * c j * ((∑ t, p i t * p j t) ^ k / (Nat.factorial k : ℝ))) :=
          (tsum_sum fun i _ => summable_sum fun j _ => hsummable i j).symm
  rw [hflat]
  exact tsum_nonneg key

/-- The quadratic form of the Gaussian kernel `exp(-||p_i - p_j||^2 / 2)` is
nonnegative, for feature vectors in any finite dimension. -/
theorem qf_gauss_nonneg {n : ℕ} {ι : Type*} [Fintype ι] (p : Fin n → ι → ℝ)
    (c : Fin n → ℝ) :
    0 ≤ ∑ i, ∑ j, c i * c j * Real.exp (-(∑ t, (p i t - p j t) ^ 2) / 2) := by
  have hsplit : ∀ i j : Fin n,
      Real.exp (-(∑ t, (p i t - p j t) ^ 2) / 2)
        = Real.exp (-(∑ t, p i t ^ 2) / 2) * Real.exp (-(∑ t, p j t ^ 2) / 2)
            * Real.exp (∑ t, p i t * p j t) := by
    intro i j
    rw [← Real.exp_add, ← Real.exp_add]
    congr 1
    have hd : (∑ t, (p i t - p j t) ^ 2)
        = (∑ t, p i t ^ 2) + (∑ t, p j t ^ 2) - 2 * ∑ t, p i t * p j t := by
      rw [Finset.mul_sum, ← Finset.sum_add_distrib, ← Finset.sum_sub_distrib]
      exact Finset.sum_congr rfl fun t _ => by ring
    rw [hd]
    ring
  have heq : ∑ i, ∑ j, c i * c j * Real.exp (-(∑ t, (p i t - p j t) ^ 2) / 2)
      = ∑ i, ∑ j, (c i * Real.exp (-(∑ t, p i t ^ 2) / 2))
          * (c j * Real.exp (-(∑ t, p j t ^ 2) / 2)) * Real.exp (∑ t, p i t * p j t) :=
    Finset.sum_congr rfl fun i _ => Finset.sum_congr rfl fun j _ => by
      rw [hsplit i j]; ring
  rw [heq]
  exact qf_exp_inner_nonneg p (fun i => c i * Real.exp (-(∑ t, p i t ^ 2) / 2))

/-- A real matrix with symmetric entries and positive quadratic form on
nonzero vectors is positive definite. -/
theorem posDef_of_qf {n : ℕ} {M : Matrix (Fin n) (Fin n) ℝ}
    (hsym : ∀ i j, M j i = M i j)
    (hqf : ∀ x : Fin n → ℝ, x ≠ 0 → 0 < dotProduct x (M *ᵥ x)) : M.PosDef := by
  constructor
  · exact Matrix.IsHermitian.ext fun i j => (star_trivial _).trans (hsym i j)
  · intro x hx
    have hst : star x = x := by
      funext i
      simp
    rw [hst]
    exact hqf x hx

/-- Squared distances are symmetric. -/
theorem dist2_comm {n : ℕ} {ι : Type*} [Fintype ι] (p : Fin n → ι → ℝ) (i j : Fin n) :
    dist2 p i j = dist2 p j i :=
  Finset.sum_congr rfl fun t _ => by ring

/-- Rescaling the coordinates by `1/w` turns the width-`w` Gaussian exponent
into the width-`1` Gaussian exponent. -/
theorem gauss_arg_scaled {n : ℕ} {ι : Type*} [Fintype ι] (p : Fin n → ι → ℝ) (w : ℝ)
    (i j : Fin n) :
    -(∑ t, (p i t / w - p j t / w) ^ 2) / 2 = -dist2 p i j / w ^ 2 / 2 := by
  have h1 : (∑ t, (p i t / w - p j t / w) ^ 2) = dist2 p i j / w ^ 2 := by
    rw [dist2, Finset.sum_div]
    exact Finset.sum_congr rfl fun t _ => by rw [div_sub_div_same, div_pow]
  rw [h1]
  ring

/-- The joint space–intensity exponent of the SNR GP kernel is the Gaussian
exponent of the combined rescaled feature vectors. -/
theorem gauss_arg_joint {n : ℕ} (p : Fin n → Fin 3 → ℝ) (inten : Fin n → ℝ) (sw ik : ℝ)
    (i j : Fin n) :
    -(∑ t : Fin 3 ⊕ Fin 1,
        (Sum.elim (fun u => p i u / sw) (fun _ => inten i / ik) t
          - Sum.elim (fun u => p j u / sw) (fun _ => inten j / ik) t) ^ 2) / 2
      = -dist2 p i j / sw ^ 2 / 2 - inten_diff2 inten i j / ik ^ 2 / 2 := by
  rw [Fintype.sum_sum_type]
  simp only [Sum.elim_inl, Sum.elim_inr]
  have h1 : (∑ u : Fin 3, (p i u / sw - p j u / sw) ^ 2) = dist2 p i j / sw ^ 2 := by
    rw [dist2, Finset.sum_div]
    exact Finset.sum_congr rfl fun t _ => by rw [div_sub_div_same, div_pow]
  have h2 : (∑ _u : Fin 1, (inten i / ik - inten j / ik) ^ 2)
      = inten_diff2 inten i j / ik ^ 2 := by
    rw [Fin.sum_univ_one, inten_diff2, div_sub_div_same, div_pow]
  rw [h1, h2]
  ring

/-- Quadratic form of the spatial noise covariance: a Gaussian-kernel part in
the rescaled variables plus `0.1` times a sum of squares. -/
theorem K_noise_qf {n : ℕ} (σ : Fin n → ℝ) (p : Fin n → Fin 3 → ℝ) (w : ℝ)
    (x : Fin n → ℝ) :
    dotProduct x (K_noise σ p w *ᵥ x)
      = (∑ i, ∑ j, (σ i * x i) * (σ j * x j) * Real.exp (-dist2 p i j / w ^ 2 / 2))
        + 0.1 * ∑ i, (σ i * x i) ^ 2 := by
  simp only [dotProduct, mulVec, K_noise, Matrix.of_apply]
  have hin : ∀ i,
      (x i * ∑ j, (σ i * (Real.exp (-dist2 p i j / w ^ 2 / 2)
          + if i = j then 0.1 else 0) * σ j) * x j)
        = (∑ j, (σ i * x i) * (σ j * x j) * Real.exp (-dist2 p i j / w ^ 2 / 2))
          + 0.1 * (σ i * x i) ^ 2 := by
    intro i
    rw [Finset.mul_sum]
    have hterm : ∀ j,
        x i * ((σ i * (Real.exp (-dist2 p i j / w ^ 2 / 2)
            + if i = j then 0.1 else 0) * σ j) * x j)
          = (σ i * x i) * (σ j * x j) * Real.exp (-dist2 p i j / w ^ 2 / 2)
            + (if i = j then 0.1 * ((σ i * x i) * (σ j * x j)) else 0) := by
      intro j
      by_cases hij : i = j
      · subst hij
        simp only [eq_self_iff_true, if_true]
        ring
      · simp only [if_neg hij]
        ring
    rw [Finset.sum_congr rfl fun j _ => hterm j, Finset.sum_add_distrib]
    congr 1
    rw [Finset.sum_ite_eq]
    simp only [Finset.mem_univ, if_true]
    ring
  rw [Finset.sum_congr rfl fun i _ => hin i, Finset.sum_add_distrib, ← Finset.mul_sum]

/-- Quadratic form of the SNR GP kernel: `tau^2` times a Gaussian-kernel part
plus the jitter `tau^2 * 0.001` times a sum of squares. -/
theorem K_qf {n : ℕ} (p : Fin n → Fin 3 → ℝ) (inten : Fin n → ℝ) (sw ik τ : ℝ)
    (x : Fin n → ℝ) :
    dotProduct x (K p inten sw ik τ *ᵥ x)
      = (∑ i, ∑ j, x i * x j
            * Real.exp (-dist2 p i j / sw ^ 2 / 2 - inten_diff2 inten i j / ik ^ 2 / 2))
          * τ ^ 2
        + τ ^ 2 * 0.001 * ∑ i, x i ^ 2 := by
  simp only [dotProduct, mulVec, K, Matrix.of_apply]
  have hin : ∀ i,
      (x i * ∑ j, (Real.exp (-dist2 p i j / sw ^ 2 / 2
            - inten_diff2 inten i j / ik ^ 2 / 2) * τ ^ 2
          + if i = j then τ ^ 2 * 0.001 else 0) * x j)
        = (∑ j, x i * x j
              * Real.exp (-dist2 p i j / sw ^ 2 / 2 - inten_diff2 inten i j / ik ^ 2 / 2))
            * τ ^ 2
          + τ ^ 2 * 0.001 * x i ^ 2 := by
    intro i
    rw [Finset.mul_sum]
    have hterm : ∀ j,
        x i * ((Real.exp (-dist2 p i j / sw ^ 2 / 2
              - inten_diff2 inten i j / ik ^ 2 / 2) * τ ^ 2
            + if i = j then τ ^ 2 * 0.001 else 0) * x j)
          = x i * x j
              * Real.exp (-dist2 p i j / sw ^ 2 / 2 - inten_diff2 inten i j / ik ^ 2 / 2)
              * τ ^ 2
            + (if i = j then τ ^ 2 * 0.001 * (x i * x j) else 0) := by
      intro j
      by_cases hij : i = j
      · subst hij
        simp only [eq_self_iff_true, if_true]
        ring
      · simp only [if_neg hij]
        ring
    rw [Finset.sum_congr rfl fun j _ => hterm j, Finset.sum_add_distrib]
    congr 1
    · rw [← Finset.sum_mul]
    · rw [Finset.sum_ite_eq]
      simp only [Finset.mem_univ, if_true]
      ring
  rw [Finset.sum_congr rfl fun i _ => hin i, Finset.sum_add_distrib, ← Finset.sum_mul,
    ← Finset.mul_sum]

/-- **C4.** For strictly positive noise standard deviations, positive kernel
widths and positive `tau`, both the spatial noise covariance `K_noise` and the
SNR GP kernel `K` (diagonal jitter included) are symmetric and positive
definite, hence admit Cholesky factorizations. -/
theorem C4_kernels_posdef {n : ℕ} (σ : Fin n → ℝ) (p : Fin n → Fin 3 → ℝ)
    (inten : Fin n → ℝ) (w sw ik τ : ℝ)
    (hσ : ∀ v, 0 < σ v) (hw : 0 < w) (hsw : 0 < sw) (hik : 0 < ik) (hτ : 0 < τ) :
    ((K_noise σ p w)ᵀ = K_noise σ p w ∧ (K_noise σ p w).PosDef)
      ∧ ((K p inten sw ik τ)ᵀ = K p inten sw ik τ ∧ (K p inten sw ik τ).PosDef) := by
  have hite : ∀ (i j : Fin n) (a : ℝ), (if j = i then a else 0) = (if i = j then a else 0) := by
    intro i j a
    by_cases hij : i = j
    · simp [hij]
    · rw [if_neg hij, if_neg fun h => hij h.symm]
  have hsymN : ∀ i j, K_noise σ p w j i = K_noise σ p w i j := by
    intro i j
    simp only [K_noise, Matrix.of_apply]
    rw [dist2_comm p j i, hite i j]
    ring
  have hsymK : ∀ i j, K p inten sw ik τ j i = K p inten sw ik τ i j := by
    intro i j
    simp only [K, Matrix.of_apply]
    have hinten : inten_diff2 inten j i = inten_diff2 inten i j := by
      simp only [inten_diff2]
      ring
    rw [dist2_comm p j i, hinten, hite i j]
  have hqfN : ∀ x : Fin n → ℝ, x ≠ 0 → 0 < dotProduct x (K_noise σ p w *ᵥ x) := by
    intro x hx
    rw [K_noise_qf]
    have hE : 0 ≤ ∑ i, ∑ j,
        (σ i * x i) * (σ j * x j) * Real.exp (-dist2 p i j / w ^ 2 / 2) := by
      refine le_of_le_of_eq (qf_gauss_nonneg (fun i t => p i t / w) (fun i => σ i * x i))
        (Finset.sum_congr rfl fun i _ => Finset.sum_congr rfl fun j _ => ?_)
      rw [gauss_arg_scaled p w i j]
    have hpos : 0 < ∑ i, (σ i * x i) ^ 2 := by
      obtain ⟨v, hv⟩ := Function.ne_iff.mp hx
      refine Finset.sum_pos' (fun i _ => sq_nonneg _) ⟨v, Finset.mem_univ v, ?_⟩
      exact pow_two_pos_of_ne_zero (mul_ne_zero (hσ v).ne' hv)
    linarith
  have hqfK : ∀ x : Fin n → ℝ, x ≠ 0 → 0 < dotProduct x (K p inten sw ik τ *ᵥ x) := by
    intro x hx
    rw [K_qf]
    have hE : 0 ≤ ∑ i, ∑ j, x i * x j
        * Real.exp (-dist2 p i j / sw ^ 2 / 2 - inten_diff2 inten i j / ik ^ 2 / 2) := by
      refine le_of_le_of_eq
        (qf_gauss_nonneg
          (fun i => Sum.elim (fun u => p i u / sw) (fun _ : Fin 1 => inten i / ik)) x)
        (Finset.sum_congr rfl fun i _ => Finset.sum_congr rfl fun j _ => ?_)
      rw [gauss_arg_joint p inten sw ik i j]
    have hpos : 0 < ∑ i, x i ^ 2 := by
      obtain ⟨v, hv⟩ := Function.ne_iff.mp hx
      refine Finset.sum_pos' (fun i _ => sq_nonneg _) ⟨v, Finset.mem_univ v, ?_⟩
      exact pow_two_pos_of_ne_zero hv
    have hτ2 : 0 < τ ^ 2 := pow_pos hτ 2
    nlinarith
  refine ⟨⟨?_, posDef_of_qf hsymN hqfN⟩, ?_, posDef_of_qf hsymK hqfK⟩
  · ext i j
    rw [Matrix.transpose_apply]
    exact hsymN i j
  · ext i j
    rw [Matrix.transpose_apply]
    exact hsymK i j

/-- Witness for C4 at a concrete input: one voxel at the origin, unit scales. -/
theorem C4_kernels_posdef_witness :
    (((K_noise (fun _ => 1) (fun _ _ => 0) 1 : Matrix (Fin 1) (Fin 1) ℝ)ᵀ
          = K_noise (fun _ => 1) (fun _ _ => 0) 1
        ∧ (K_noise (fun _ => 1) (fun _ _ => 0) 1 : Matrix (Fin 1) (Fin 1) ℝ).PosDef)
      ∧ ((K (fun _ _ => 0) (fun _ => 0) 1 1 1 : Matrix (Fin 1) (Fin 1) ℝ)ᵀ
          = K (fun _ _ => 0) (fun _ => 0) 1 1 1
        ∧ (K (fun _ _ => 0) (fun _ => 0) 1 1 1 : Matrix (Fin 1) (Fin 1) ℝ).PosDef)) :=
  C4_kernels_posdef (fun _ => 1) (fun _ _ => 0) (fun _ => 0) 1 1 1 1
    (fun _ => one_pos) one_pos one_pos one_pos one_pos

/-- Multiplying a nonzero vector by a matrix with invertible determinant gives
a nonzero vector. -/
theorem mulVec_ne_zero_of_isUnit {n : ℕ} {A : Matrix (Fin n) (Fin n) ℝ} (hA : IsUnit A.det)
    {x : Fin n → ℝ} (hx : x ≠ 0) : A *ᵥ x ≠ 0 := by
  intro h0
  apply hx
  have h1 : A⁻¹ *ᵥ (A *ᵥ x) = A⁻¹ *ᵥ 0 := by rw [h0]
  rwa [Matrix.mulVec_mulVec, Matrix.nonsing_inv_mul _ hA, Matrix.one_mulVec,
    Matrix.mulVec_zero] at h1

/-- Congruence by an invertible matrix preserves positive definiteness. -/
theorem posDef_conj_of_isUnit {n : ℕ} {B M : Matrix (Fin n) (Fin n) ℝ} (hM : M.PosDef)
    (hB : IsUnit B.det) : (B * M * Bᴴ).PosDef := by
  constructor
  · exact ((hM.posSemidef).mul_mul_conjTranspose_same B).1
  · intro x hx
    have key : star x ⬝ᵥ ((B * M * Bᴴ) *ᵥ x) = star (Bᴴ *ᵥ x) ⬝ᵥ (M *ᵥ (Bᴴ *ᵥ x)) := by
      rw [show (B * M * Bᴴ) *ᵥ x = B *ᵥ (M *ᵥ (Bᴴ *ᵥ x)) by
            rw [← Matrix.mulVec_mulVec, ← Matrix.mulVec_mulVec],
        Matrix.dotProduct_mulVec,
        show star x ᵥ* B = star (Bᴴ *ᵥ x) by
          rw [Matrix.star_mulVec, Matrix.conjTranspose_conjTranspose]]
    rw [key]
    have hdetH : IsUnit (Bᴴ).det := by
      rw [Matrix.det_conjTranspose]
      simpa using hB
    exact hM.2 _ (mulVec_ne_zero_of_isUnit hdetH hx)

/-- If `M` has a Cholesky factor then `M` is positive definite. -/
theorem posDef_of_choleskyFactor {n : ℕ} {L M : Matrix (Fin n) (Fin n) ℝ}
    (h : CholeskyFactor L M) : M.PosDef := by
  obtain ⟨-, hdet, hfac⟩ := h
  subst hfac
  constructor
  · show (L * Lᵀ)ᴴ = L * Lᵀ
    rw [Matrix.conjTranspose_eq_transpose_of_trivial, Matrix.transpose_mul,
      Matrix.transpose_transpose]
  · intro x hx
    have hst : star x = x := by
      funext i
      simp
    rw [hst]
    have hy : dotProduct x ((L * Lᵀ) *ᵥ x) = dotProduct (Lᵀ *ᵥ x) (Lᵀ *ᵥ x) := by
      rw [← Matrix.mulVec_mulVec, Matrix.dotProduct_mulVec]
      congr 1
      exact (Matrix.mulVec_transpose L x).symm
    rw [hy]
    have hyne : Lᵀ *ᵥ x ≠ 0 := mulVec_ne_zero_of_isUnit (by rwa [Matrix.det_transpose]) hx
    obtain ⟨v, hv⟩ := Function.ne_iff.mp hyne
    simp only [dotProduct]
    exact Finset.sum_pos' (fun i _ => mul_self_nonneg _)
      ⟨v, Finset.mem_univ v, mul_self_pos.mpr hv⟩

/-- Every positive definite real matrix has a Cholesky factor, obtained from
the LDL decomposition by absorbing the square roots of the diagonal. -/
theorem choleskyFactor_of_posDef {n : ℕ} {M : Matrix (Fin n) (Fin n) ℝ} (hM : M.PosDef) :
    ∃ L, CholeskyFactor L M := by
  letI iLin : LinearOrder (Fin n) := inferInstance
  letI iWF : WellFoundedLT (Fin n) := inferInstance
  letI iLF : LocallyFiniteOrderBot (Fin n) := inferInstance
  letI iInv := @LDL.invertibleLowerInv ℝ _ (Fin n) iLin iWF iLF M _ hM
  set Li : Matrix (Fin n) (Fin n) ℝ := @LDL.lowerInv ℝ _ (Fin n) iLin iWF iLF M _ hM
    with hLi
  set d : Fin n → ℝ := @LDL.diagEntries ℝ _ (Fin n) iLin iWF iLF M _ hM with hd
  have hIU : IsUnit Li.det := by
    obtain ⟨B0, hB0, -⟩ := iInv
    have hB1 : B0 * Li = (1 : Matrix (Fin n) (Fin n) ℝ) := by
      refine hB0.trans ?_
      ext i j
      rcases eq_or_ne i j with rfl | hij
      · simp [Matrix.one_apply]
      · simp [Matrix.one_apply, hij]
    have hdetmul : Li.det * B0.det = 1 := by
      rw [mul_comm, ← Matrix.det_mul, hB1, Matrix.det_one]
    exact isUnit_of_mul_eq_one _ _ hdetmul
  have hdiag2 : Matrix.diagonal d = Li * M * Liᵀ := by
    rw [← Matrix.conjTranspose_eq_transpose_of_trivial,
      ← @LDL.diag_eq_lowerInv_conj ℝ _ (Fin n) iLin iWF iLF M _ hM]
    unfold LDL.diag
    ext i j
    rcases eq_or_ne i j with rfl | hij
    · simp [Matrix.diagonal]
    · simp [Matrix.diagonal, hij]
  have hdpos : ∀ i, 0 < d i := by
    have hdiagPD : (Matrix.diagonal d).PosDef := by
      rw [hdiag2, ← Matrix.conjTranspose_eq_transpose_of_trivial]
      exact posDef_conj_of_isUnit hM hIU
    exact Matrix.posDef_diagonal_iff.mp hdiagPD
  have hInvTri : Li.BlockTriangular (OrderDual.toDual : Fin n → (Fin n)ᵒᵈ) := by
    intro i j hij
    exact @LDL.lowerInv_triangular ℝ _ (Fin n) iLin iWF iLF M _ hM i j
      (OrderDual.toDual_lt_toDual.mp hij)
  letI myInv : Invertible Li := Li.invertibleOfIsUnitDet hIU
  have hBtri : (Li⁻¹).BlockTriangular (OrderDual.toDual : Fin n → (Fin n)ᵒᵈ) :=
    Matrix.blockTriangular_inv_of_blockTriangular hInvTri
  have hBl : Li⁻¹ * Li = 1 := Matrix.nonsing_inv_mul _ hIU
  have key : Li⁻¹ * Matrix.diagonal d * (Li⁻¹)ᵀ = M := by
    rw [hdiag2]
    calc Li⁻¹ * (Li * M * Liᵀ) * (Li⁻¹)ᵀ
        = (Li⁻¹ * Li) * M * (Liᵀ * (Li⁻¹)ᵀ) := by
          simp only [Matrix.mul_assoc]
      _ = M := by
          rw [show Liᵀ * (Li⁻¹)ᵀ = (Li⁻¹ * Li)ᵀ from (Matrix.transpose_mul _ _).symm,
            hBl, Matrix.transpose_one, Matrix.one_mul, Matrix.mul_one]
  have hDD : Matrix.diagonal (fun i => Real.sqrt (d i))
      * Matrix.diagonal (fun i => Real.sqrt (d i)) = Matrix.diagonal d := by
    rw [Matrix.diagonal_mul_diagonal]
    exact congrArg Matrix.diagonal (funext fun i => Real.mul_self_sqrt (hdpos i).le)
  refine ⟨Li⁻¹ * Matrix.diagonal (fun i => Real.sqrt (d i)), ?_, ?_, ?_⟩
  · intro i j hij
    exact Matrix.BlockTriangular.mul hBtri (Matrix.blockTriangular_diagonal _)
      (OrderDual.toDual_lt_toDual.mpr hij)
  · rw [Matrix.det_mul, Matrix.det_diagonal]
    exact (Matrix.isUnit_nonsing_inv_det _ hIU).mul (isUnit_iff_ne_zero.mpr
      (ne_of_gt (Finset.prod_pos fun i _ => Real.sqrt_pos.mpr (hdpos i))))
  · calc (Li⁻¹ * Matrix.diagonal (fun i => Real.sqrt (d i)))
          * (Li⁻¹ * Matrix.diagonal (fun i => Real.sqrt (d i)))ᵀ
        = Li⁻¹ * (Matrix.diagonal (fun i => Real.sqrt (d i))
            * (Matrix.diagonal (fun i => Real.sqrt (d i)) * (Li⁻¹)ᵀ)) := by
          rw [Matrix.transpose_mul, Matrix.diagonal_transpose]
          simp only [Matrix.mul_assoc]
      _ = Li⁻¹ * (Matrix.diagonal d * (Li⁻¹)ᵀ) := by
          rw [← Matrix.mul_assoc (Matrix.diagonal fun i => Real.sqrt (d i)), hDD]
      _ = M := by
          rw [← Matrix.mul_assoc]
          exact key

/-- If the matrix is positive definite, `cholesky` returns a factor. -/
theorem cholesky_ok_of_posDef {n : ℕ} {M : Matrix (Fin n) (Fin n) ℝ} (hM : M.PosDef) :
    ∃ L, cholesky M = Except.ok L := by
  have hex : ∃ L, CholeskyFactor L M := choleskyFactor_of_posDef hM
  refine ⟨hex.choose, ?_⟩
  unfold cholesky
  rw [dif_pos hex]

/-- If the matrix is not positive definite, `cholesky` raises the explicit
not-positive-definite error. -/
theorem cholesky_error_of_not_posDef {n : ℕ} {M : Matrix (Fin n) (Fin n) ℝ}
    (hM : ¬ M.PosDef) :
    cholesky M = Except.error "noise covariance not positive definite" := by
  have hex : ¬ ∃ L, CholeskyFactor L M := fun ⟨_, hL⟩ => hM (posDef_of_choleskyFactor hL)
  unfold cholesky
  rw [dif_neg hex]

/-- **C9.** If the spatial noise covariance is singular or not positive
definite despite the jitter, the Cholesky factorization step fails with the
explicit not-positive-definite error instead of returning a result; whenever
`K_noise` is positive definite, no error is raised and a factor is returned. -/
theorem C9_cholesky_failure {n : ℕ} (σ : Fin n → ℝ) (p : Fin n → Fin 3 → ℝ) (w : ℝ) :
    (¬ (K_noise σ p w).PosDef →
        cholesky (K_noise σ p w) = Except.error "noise covariance not positive definite")
      ∧ ((K_noise σ p w).PosDef → ∃ L, cholesky (K_noise σ p w) = Except.ok L) :=
  ⟨cholesky_error_of_not_posDef, cholesky_ok_of_posDef⟩

/-- Witness for C9: with `sigma = 0` the covariance is the zero matrix and the
error is raised; with `sigma = 1` it is positive definite and a factor is
returned. -/
theorem C9_cholesky_failure_witness :
    cholesky (K_noise (fun _ : Fin 1 => 0) (fun _ _ => 0) 1)
        = Except.error "noise covariance not positive definite"
      ∧ ∃ L, cholesky (K_noise (fun _ : Fin 1 => 1) (fun _ _ => 0) 1) = Except.ok L := by
  constructor
  · refine (C9_cholesky_failure (fun _ => 0) (fun _ _ => 0) 1).1 ?_
    intro hPD
    have hne : (fun _ : Fin 1 => (1 : ℝ)) ≠ 0 := by
      intro h
      have h0 := congrFun h 0
      norm_num at h0
    have h := hPD.2 _ hne
    have hzero : dotProduct (star fun _ : Fin 1 => (1 : ℝ))
        (K_noise (fun _ : Fin 1 => (0 : ℝ)) (fun _ _ => 0) 1 *ᵥ fun _ => 1) = 0 := by
      simp [K_noise, dotProduct, mulVec]
    rw [hzero] at h
    exact lt_irrefl 0 h
  · refine (C9_cholesky_failure (fun _ => 1) (fun _ _ => 0) 1).2 ?_
    refine posDef_of_qf (fun i j => by rw [Subsingleton.elim i j]) ?_
    intro x hx
    have hx0 : x 0 ≠ 0 := by
      intro h0
      apply hx
      funext i
      rw [Subsingleton.elim i (0 : Fin 1)]
      exact h0
    have hval : dotProduct x (K_noise (fun _ : Fin 1 => (1 : ℝ)) (fun _ _ => 0) 1 *ᵥ x)
        = (1 + 0.1) * (x 0 * x 0) := by
      simp [K_noise, dotProduct, mulVec, dist2]
      ring
    rw [hval]
    nlinarith [mul_self_pos.mpr hx0]

/-- Entrywise decomposition of the notebook's ideal covariance matrix into a
multiple of the identity, a diagonal correction on the block, and a rank-one
block term. -/
theorem ideal_cov_entry (nC : ℕ) (i j : Fin nC) :
    ideal_cov nC i j
      = 0.6 * (if i = j then (1 : ℝ) else 0)
        - 0.4 * (if i = j then (1 : ℝ) else 0)
            * (if 8 ≤ (i : ℕ) ∧ (i : ℕ) < 12 then (1 : ℝ) else 0)
        + (0.8 * ((if 8 ≤ (i : ℕ) ∧ (i : ℕ) < 12 then (1 : ℝ) else 0)))
            * (if 8 ≤ (j : ℕ) ∧ (j : ℕ) < 12 then (1 : ℝ) else 0) := by
  simp only [ideal_cov, Matrix.of_apply]
  rcases eq_or_ne i j with rfl | hij
  · by_cases hiB : 8 ≤ (i : ℕ) ∧ (i : ℕ) < 12
    · rw [if_pos ⟨hiB.1, hiB.2, hiB.1, hiB.2⟩]
      simp only [eq_self_iff_true, if_true, if_pos hiB]
      norm_num
    · rw [if_neg fun hc => hiB ⟨hc.1, hc.2.1⟩]
      simp only [eq_self_iff_true, if_true, if_neg hiB]
      norm_num
  · by_cases hiB : 8 ≤ (i : ℕ) ∧ (i : ℕ) < 12
    · by_cases hjB : 8 ≤ (j : ℕ) ∧ (j : ℕ) < 12
      · rw [if_pos ⟨hiB.1, hiB.2, hjB.1, hjB.2⟩]
        simp only [if_neg hij, if_pos hiB, if_pos hjB]
        norm_num
      · rw [if_neg fun hc => hjB ⟨hc.2.2.1, hc.2.2.2⟩]
        simp only [if_neg hij, if_pos hiB, if_neg hjB]
        norm_num
    · rw [if_neg fun hc => hiB ⟨hc.1, hc.2.1⟩]
      simp only [if_neg hij, if_neg hiB]
      norm_num

/-- Quadratic form of the ideal covariance matrix. -/
theorem ideal_cov_qf (nC : ℕ) (x : Fin nC → ℝ) :
    dotProduct x (ideal_cov nC *ᵥ x)
      = 0.6 * (∑ i : Fin nC, x i * x i)
        - 0.4 * (∑ i : Fin nC,
            (if 8 ≤ (i : ℕ) ∧ (i : ℕ) < 12 then (1 : ℝ) else 0) * (x i * x i))
        + 0.8 * ((∑ i : Fin nC, (if 8 ≤ (i : ℕ) ∧ (i : ℕ) < 12 then (1 : ℝ) else 0) * x i)
            * (∑ j : Fin nC,
                (if 8 ≤ (j : ℕ) ∧ (j : ℕ) < 12 then (1 : ℝ) else 0) * x j)) := by
  simp only [dotProduct, mulVec]
  have hin : ∀ i, (x i * ∑ j, ideal_cov nC i j * x j)
      = 0.6 * (x i * x i)
        - 0.4 * ((if 8 ≤ (i : ℕ) ∧ (i : ℕ) < 12 then (1 : ℝ) else 0) * (x i * x i))
        + (0.8 * ((if 8 ≤ (i : ℕ) ∧ (i : ℕ) < 12 then (1 : ℝ) else 0) * x i))
            * ∑ j : Fin nC, (if 8 ≤ (j : ℕ) ∧ (j : ℕ) < 12 then (1 : ℝ) else 0) * x j := by
    intro i
    rw [Finset.mul_sum]
    have hterm : ∀ j, x i * (ideal_cov nC i j * x j)
        = 0.6 * (if i = j then x i * x j else 0)
          - 0.4 * (if i = j then
              (if 8 ≤ (i : ℕ) ∧ (i : ℕ) < 12 then (1 : ℝ) else 0) * (x i * x j) else 0)
          + (0.8 * ((if 8 ≤ (i : ℕ) ∧ (i : ℕ) < 12 then (1 : ℝ) else 0) * x i))
              * ((if 8 ≤ (j : ℕ) ∧ (j : ℕ) < 12 then (1 : ℝ) else 0) * x j) := by
      intro j
      rw [ideal_cov_entry]
      rcases eq_or_ne i j with rfl | hij
      · simp only [eq_self_iff_true, if_true]
        ring
      · simp only [if_neg hij]
        ring
    rw [Finset.sum_congr rfl fun j _ => hterm j, Finset.sum_add_distrib,
      Finset.sum_sub_distrib, ← Finset.mul_sum, ← Finset.mul_sum, ← Finset.mul_sum,
      Finset.sum_ite_eq, Finset.sum_ite_eq]
    simp only [Finset.mem_univ, if_true]
  rw [Finset.sum_congr rfl fun i _ => hin i, Finset.sum_add_distrib,
    Finset.sum_sub_distrib, ← Finset.mul_sum, ← Finset.mul_sum, ← Finset.sum_mul,
    ← Finset.mul_sum]
  ring

/-- **C10.** The notebook's ideal condition covariance (0.6 times the identity
with the 4×4 block at indices 8–11 set to 0.8 off-diagonal and 1 on the
diagonal) is symmetric positive definite whenever `n_C ≥ 12`, so its Cholesky
factorization succeeds and it is a valid shared covariance for the signal
simulator. -/
theorem C10_ideal_cov_valid (nC : ℕ) (h : 12 ≤ nC) :
    (ideal_cov nC)ᵀ = ideal_cov nC ∧ (ideal_cov nC).PosDef
      ∧ ∃ L, cholesky (ideal_cov nC) = Except.ok L := by
  have hsym : ∀ i j, ideal_cov nC j i = ideal_cov nC i j := by
    intro i j
    simp only [ideal_cov, Matrix.of_apply]
    rcases eq_or_ne i j with rfl | hij
    · rfl
    · simp only [if_neg hij, if_neg (Ne.symm hij)]
      exact if_congr (by tauto) rfl rfl
  have hPD : (ideal_cov nC).PosDef := by
    refine posDef_of_qf hsym ?_
    intro x hx
    rw [ideal_cov_qf]
    have hle : (∑ i : Fin nC,
          (if 8 ≤ (i : ℕ) ∧ (i : ℕ) < 12 then (1 : ℝ) else 0) * (x i * x i))
        ≤ ∑ i : Fin nC, x i * x i := by
      refine Finset.sum_le_sum fun i _ => ?_
      by_cases hiB : 8 ≤ (i : ℕ) ∧ (i : ℕ) < 12
      · rw [if_pos hiB, one_mul]
      · rw [if_neg hiB, zero_mul]
        exact mul_self_nonneg _
    have hsq : 0 ≤ (∑ i : Fin nC, (if 8 ≤ (i : ℕ) ∧ (i : ℕ) < 12 then (1 : ℝ) else 0) * x i)
        * (∑ j : Fin nC, (if 8 ≤ (j : ℕ) ∧ (j : ℕ) < 12 then (1 : ℝ) else 0) * x j) :=
      mul_self_nonneg _
    have hpos : 0 < ∑ i : Fin nC, x i * x i := by
      obtain ⟨v, hv⟩ := Function.ne_iff.mp hx
      exact Finset.sum_pos' (fun i _ => mul_self_nonneg _)
        ⟨v, Finset.mem_univ v, mul_self_pos.mpr hv⟩
    linarith
  refine ⟨?_, hPD, cholesky_ok_of_posDef hPD⟩
  ext i j
  rw [Matrix.transpose_apply]
  exact hsym i j

/-- Witness for C10 at the notebook's size `n_C = 16`. -/
theorem C10_ideal_cov_valid_witness :
    (ideal_cov 16)ᵀ = ideal_cov 16 ∧ (ideal_cov 16).PosDef
      ∧ ∃ L, cholesky (ideal_cov 16) = Except.ok L :=
  C10_ideal_cov_valid 16 (by norm_num)

end

end Brsa
